import Mathlib

/-!
Verification development for the tapioca-bar liquidation auction queue.

The repository ships the LiquidationQueue engine's tests, deployment glue
and CLI tasks; the engine contract itself (LiquidationQueue) is not part
of the available sources.  The definitions below are therefore a shallow
embedding of the engine modelled from its specification (spec.md sections
3, 4, 6 and 7), with the recorded test behaviour (src/test/
liquidationQueue.test.ts) fixing the observable conventions: pool ids run
from 0 to MAX_POOL, a missing pending bid is reported as BidNotFound,
activation is gated by the stored bid timestamp against the activation
delay, execution drains pools in ascending order and entries FIFO within a
pool, and redemption is read-then-clear.

Addresses, asset amounts and timestamps are modelled as Nat.  Reverts of
the contract are modelled as Except errors: an error carries no successor
state, matching the spec's atomic-rollback requirement (section 7).
-/

namespace LQ

/-- A pending (pre-activation) bid: escrowed amount and the placement
timestamp used for the activation-delay gate.  Modelled from the spec:
BidInfo of the LiquidationQueue contract, absent from the sources. -/
structure BidInfo where
  amount : Nat
  timestamp : Nat
deriving Repr, DecidableEq

/-- An activated, execution-eligible bid in a pool's order book.
Modelled from the spec: OrderBookEntry of the LiquidationQueue contract,
absent from the sources. -/
structure OrderBookEntry where
  bidder : Nat
  bidInfo : BidInfo
deriving Repr, DecidableEq

/-- One-time configuration of the queue.  Modelled from the spec:
LiquidationQueueMeta of the LiquidationQueue contract, absent from the
sources.  The swap adapter is modelled separately as a function argument
of bidWithStable, and asset ids are not tracked. -/
structure LQMeta where
  activationTime : Nat
  minBidAmount : Nat
  defaultBidAmount : Nat
  feeCollector : Nat
  market : Nat
deriving Repr, DecidableEq

/-- Full queue state.  Modelled from the spec: storage of the
LiquidationQueue contract, absent from the sources.  Maps are total
functions from Nat keys; each pool's order book is its append-only entry
sequence (so the write cursor nextBidPush is the sequence length) together
with the read cursor nextBidPull.  bidBalance and collateralBalance model
the external custody ledger's per-account balances of the bid asset and of
the liquidated asset. -/
structure LQState where
  initialized : Bool
  meta : LQMeta
  bidPools : Nat → Nat → BidInfo
  orderBookEntries : Nat → List OrderBookEntry
  nextBidPull : Nat → Nat
  userBidIndexes : Nat → Nat → List Nat
  balancesDue : Nat → Nat
  bidBalance : Nat → Nat
  collateralBalance : Nat → Nat

/-- Failure taxonomy of the queue, from spec section 7. -/
inductive LQError where
  | NotInitialized
  | AlreadyInitialized
  | PremiumTooHigh
  | BidTooLow
  | BidNotFound
  | TooSoon
  | Unauthorized
  | OnlyQueue
  | InsufficientSwapOutput
  | NoBalanceDue
deriving Repr, DecidableEq

/-- Pointwise update of a total map. -/
def updMap {α : Type} (f : Nat → α) (k : Nat) (v : α) : Nat → α :=
  fun x => if x = k then v else f x

/-- Pointwise update of a two-key total map. -/
def updMap2 {α : Type} (f : Nat → Nat → α) (k1 k2 : Nat) (v : α) : Nat → Nat → α :=
  updMap f k1 (updMap (f k1) k2 v)

@[simp] theorem updMap_same {α : Type} (f : Nat → α) (k : Nat) (v : α) :
    updMap f k v k = v := by
  simp [updMap]

theorem updMap_other {α : Type} (f : Nat → α) (k : Nat) (v : α) (x : Nat) (h : x ≠ k) :
    updMap f k v x = f x := by
  simp [updMap, h]

@[simp] theorem updMap2_same {α : Type} (f : Nat → Nat → α) (k1 k2 : Nat) (v : α) :
    updMap2 f k1 k2 v k1 k2 = v := by
  simp [updMap2, updMap]

theorem updMap2_other1 {α : Type} (f : Nat → Nat → α) (k1 k2 : Nat) (v : α)
    (x y : Nat) (h : x ≠ k1) : updMap2 f k1 k2 v x y = f x y := by
  simp [updMap2, updMap, h]

theorem updMap2_other2 {α : Type} (f : Nat → Nat → α) (k1 k2 : Nat) (v : α)
    (y : Nat) (h : y ≠ k2) : updMap2 f k1 k2 v k1 y = f k1 y := by
  simp [updMap2, updMap, h]

/-- Highest valid premium pool id: the recorded behaviour accepts pool 10
and rejects pool 40 with PremiumTooHigh, and the check is a strict
comparison against this bound. -/
def MAX_POOL : Nat := 10

/-- Protocol fee numerator carved from each fill.  Modelled from the spec:
the exact fraction is an open configuration question (spec section 9); any
fixed fraction not exceeding one satisfies the stated properties. -/
def FEE_NUMERATOR : Nat := 5

/-- Protocol fee precision denominator. -/
def FEE_PRECISION : Nat := 10000

/-- Fee carved from a fill of the given liquidated-asset amount. -/
def feeAmount (x : Nat) : Nat := x * FEE_NUMERATOR / FEE_PRECISION

/-- Minimum bid amount admitted into a pool.  Modelled from the spec: the
minimum scales with pool and market configuration; the recorded behaviour
only exercises the configured minBidAmount, used uniformly here. -/
def poolMinimum (s : LQState) (_poolId : Nat) : Nat := s.meta.minBidAmount

/-- The queue state before initialization: every map empty or zero. -/
def emptyLQState : LQState where
  initialized := false
  meta := ⟨0, 0, 0, 0, 0⟩
  bidPools := fun _ _ => ⟨0, 0⟩
  orderBookEntries := fun _ => []
  nextBidPull := fun _ => 0
  userBidIndexes := fun _ _ => []
  balancesDue := fun _ => 0
  bidBalance := fun _ => 0
  collateralBalance := fun _ => 0

/-- Write cursor of a pool's order book: the next append position. -/
def nextBidPush (s : LQState) (poolId : Nat) : Nat :=
  (s.orderBookEntries poolId).length

/-- One-time initialization.  Modelled from the spec: init of the
LiquidationQueue contract, absent from the sources; fails
AlreadyInitialized on reuse. -/
def init (s : LQState) (m : LQMeta) : Except LQError LQState :=
  if s.initialized then .error .AlreadyInitialized
  else .ok { s with initialized := true, meta := m }

/-- Place a pending bid.  Modelled from the spec: bid of the
LiquidationQueue contract, absent from the sources.  Checks
initialization, the premium bound, the pool minimum and custody funds
(a caller without the escrowed funds is rejected as Unauthorized); debits
the bidder's custody balance into queue escrow and merges into any prior
pending bid, resetting its timestamp (the merge policy recommended by spec
section 9). -/
def bid (s : LQState) (bidder poolId amount now : Nat) : Except LQError LQState :=
  if s.initialized = false then .error .NotInitialized
  else if MAX_POOL < poolId then .error .PremiumTooHigh
  else if amount < poolMinimum s poolId then .error .BidTooLow
  else if s.bidBalance bidder < amount then .error .Unauthorized
  else
    .ok { s with
      bidBalance := updMap s.bidBalance bidder (s.bidBalance bidder - amount),
      bidPools := updMap2 s.bidPools poolId bidder
        ⟨(s.bidPools poolId bidder).amount + amount, now⟩ }

/-- Place a pending bid funded by a foreign stable asset.  Modelled from
the spec: bidWithStable of the LiquidationQueue contract, absent from the
sources.  The swap adapter is abstracted as a function from the foreign
input amount to either an adapter failure or the converted bid-asset
amount; the BidTooLow check applies to the converted amount.  The foreign
asset leaves the bidder through the adapter, so the bid-asset custody
balance is not debited here. -/
def bidWithStable (s : LQState) (bidder poolId foreignAmount : Nat)
    (swapFn : Nat → Except LQError Nat) (now : Nat) : Except LQError LQState :=
  if s.initialized = false then .error .NotInitialized
  else if MAX_POOL < poolId then .error .PremiumTooHigh
  else
    match swapFn foreignAmount with
    | .error e => .error e
    | .ok converted =>
      if converted < poolMinimum s poolId then .error .BidTooLow
      else
        .ok { s with
          bidPools := updMap2 s.bidPools poolId bidder
            ⟨(s.bidPools poolId bidder).amount + converted, now⟩ }

/-- Activate a pending bid after the delay.  Modelled from the spec:
activateBid of the LiquidationQueue contract, absent from the sources.
Fails BidNotFound without a pending bid, TooSoon before the delay has
elapsed; on success clears the pending entry, appends an order-book entry
at the pool's write cursor and records the position in the bidder's
index. -/
def activateBid (s : LQState) (bidder poolId now : Nat) : Except LQError LQState :=
  if (s.bidPools poolId bidder).amount = 0 then .error .BidNotFound
  else if now - (s.bidPools poolId bidder).timestamp < s.meta.activationTime then
    .error .TooSoon
  else
    .ok { s with
      bidPools := updMap2 s.bidPools poolId bidder ⟨0, 0⟩,
      orderBookEntries := updMap s.orderBookEntries poolId
        (s.orderBookEntries poolId ++
          [⟨bidder, ⟨(s.bidPools poolId bidder).amount, now⟩⟩]),
      userBidIndexes := updMap2 s.userBidIndexes bidder poolId
        (s.userBidIndexes bidder poolId ++ [(s.orderBookEntries poolId).length]) }

/-- Cancel a pending bid before activation.  Modelled from the spec:
removeInactivatedBid of the LiquidationQueue contract, absent from the
sources.  Fails BidNotFound without a pending bid; refunds the escrowed
amount to the bidder's custody balance and clears the pending entry. -/
def removeInactivatedBid (s : LQState) (bidder poolId : Nat) : Except LQError LQState :=
  if (s.bidPools poolId bidder).amount = 0 then .error .BidNotFound
  else
    .ok { s with
      bidPools := updMap2 s.bidPools poolId bidder ⟨0, 0⟩,
      bidBalance := updMap s.bidBalance bidder
        (s.bidBalance bidder + (s.bidPools poolId bidder).amount) }

/-- Withdraw accumulated proceeds.  Modelled from the spec: redeem of the
LiquidationQueue contract, absent from the sources.  Fails NoBalanceDue on
a zero ledger entry; otherwise transfers the full owed amount of the
liquidated asset to the beneficiary's custody balance and zeroes the
ledger entry. -/
def redeem (s : LQState) (beneficiary : Nat) : Except LQError LQState :=
  if s.balancesDue beneficiary = 0 then .error .NoBalanceDue
  else
    .ok { s with
      balancesDue := updMap s.balancesDue beneficiary 0,
      collateralBalance := updMap s.collateralBalance beneficiary
        (s.collateralBalance beneficiary + s.balancesDue beneficiary) }

/-- Result of draining one pool's order-book suffix: the updated suffix,
the unfilled remainder of the demand, the fills as bidder-amount pairs in
consumption order, and the number of positions the read cursor advances. -/
structure DrainResult where
  entries : List OrderBookEntry
  remaining : Nat
  fills : List (Nat × Nat)
  consumed : Nat

/-- FIFO consumption of a list of order-book entries against a liquidation
demand.  Modelled from the spec: the inner loop of executeBids of the
LiquidationQueue contract, absent from the sources.  A voided entry
(amount zero) is skipped with the cursor advancing past it; an entry not
exceeding the remaining demand is fully consumed; a larger entry is
partially filled in place and the cursor stays on it. -/
def drainEntries : Nat → List OrderBookEntry → DrainResult
  | demand, [] => ⟨[], demand, [], 0⟩
  | demand, e :: rest =>
    if demand = 0 then ⟨e :: rest, 0, [], 0⟩
    else if e.bidInfo.amount = 0 then
      let r := drainEntries demand rest
      ⟨e :: r.entries, r.remaining, r.fills, r.consumed + 1⟩
    else if e.bidInfo.amount ≤ demand then
      let r := drainEntries (demand - e.bidInfo.amount) rest
      ⟨{ e with bidInfo := ⟨0, e.bidInfo.timestamp⟩ } :: r.entries, r.remaining,
        (e.bidder, e.bidInfo.amount) :: r.fills, r.consumed + 1⟩
    else
      ⟨{ e with bidInfo := ⟨e.bidInfo.amount - demand, e.bidInfo.timestamp⟩ } :: rest,
        0, [(e.bidder, demand)], 0⟩

/-- Total liquidated-asset amount of a list of fills. -/
def fillsSum (fills : List (Nat × Nat)) : Nat :=
  (fills.map Prod.snd).sum

/-- Credit one fill: the bidder receives the fill minus the protocol fee,
the fee collector receives the fee. -/
def creditOne (fc : Nat) (bal : Nat → Nat) (bidder amt : Nat) : Nat → Nat :=
  let bal1 := updMap bal bidder (bal bidder + (amt - feeAmount amt))
  updMap bal1 fc (bal1 fc + feeAmount amt)

/-- Credit a list of fills into the balancesDue ledger. -/
def applyFills (fc : Nat) (fills : List (Nat × Nat)) (bal : Nat → Nat) : Nat → Nat :=
  fills.foldl (fun b p => creditOne fc b p.1 p.2) bal

/-- Drain one pool against the demand from its read cursor: the pool's
order book is updated with the drained suffix, the cursor advances past
the entries fully consumed or voided, and the fills are reported together
with the unfilled remainder.  Modelled from the spec: one iteration of
the pool loop of executeBids of the LiquidationQueue contract, absent
from the sources. -/
def poolStep (s : LQState) (demand p : Nat) : LQState × Nat × List (Nat × Nat) :=
  let book := s.orderBookEntries p
  let pull := s.nextBidPull p
  let r := drainEntries demand (book.drop pull)
  ({ s with
      orderBookEntries := updMap s.orderBookEntries p (book.take pull ++ r.entries),
      nextBidPull := updMap s.nextBidPull p (pull + r.consumed) },
    r.remaining, r.fills)

/-- Drain the given pools in order against the demand, updating each
pool's order book and read cursor and collecting the fills.  Modelled
from the spec: the pool loop of executeBids of the LiquidationQueue
contract, absent from the sources. -/
def execPoolsGo (s : LQState) (demand : Nat) :
    List Nat → LQState × Nat × List (Nat × Nat)
  | [] => (s, demand, [])
  | p :: ps =>
    if demand = 0 then (s, 0, [])
    else
      let st := poolStep s demand p
      let rest := execPoolsGo st.1 st.2.1 ps
      (rest.1, rest.2.1, st.2.2 ++ rest.2.2)

/-- Consume order-book liquidity to satisfy a liquidation.  Modelled from
the spec: executeBids of the LiquidationQueue contract, absent from the
sources.  Only the registered market may call; pools are drained in
ascending premium order, each FIFO from its read cursor; fills are
credited to balancesDue with the protocol fee carved out for the fee
collector.  A liquidity shortfall is not an error: the call returns the
amount actually satisfied. -/
def executeBids (s : LQState) (caller total : Nat) :
    Except LQError (Nat × LQState) :=
  if caller ≠ s.meta.market then .error .Unauthorized
  else
    let r := execPoolsGo s total (List.range (MAX_POOL + 1))
    .ok (total - r.2.1,
      { r.1 with balancesDue := applyFills r.1.meta.feeCollector r.2.2 r.1.balancesDue })

/-- Public view of a pool's order-book entry sequence.  Modelled from the
spec: getOrderBookPoolEntries of the LiquidationQueue contract, absent
from the sources. -/
def getOrderBookPoolEntries (s : LQState) (poolId : Nat) : List OrderBookEntry :=
  s.orderBookEntries poolId

/-- Number of recorded order-book positions of a bidder in a pool. -/
def userBidIndexLength (s : LQState) (bidder poolId : Nat) : Nat :=
  (s.userBidIndexes bidder poolId).length

/-- A sequence of market-called executeBids invocations with the given
demands. -/
def execSeq (s : LQState) : List Nat → LQState
  | [] => s
  | d :: ds =>
    match executeBids s s.meta.market d with
    | .ok r => execSeq r.2 ds
    | .error _ => execSeq s ds

/-- Default entry used to read an order-book position out of range. -/
def defaultEntry : OrderBookEntry := ⟨0, ⟨0, 0⟩⟩

/-- Remaining amount of the order-book entry at a position of a list;
zero out of range. -/
def amountAt (l : List OrderBookEntry) (i : Nat) : Nat :=
  (l.getD i defaultEntry).bidInfo.amount

/-- Remaining amount of the order-book entry at a position of a pool. -/
def sAmountAt (s : LQState) (poolId i : Nat) : Nat :=
  amountAt (s.orderBookEntries poolId) i

/-- Amount paid out of the order-book entry at a position of a pool over a
sequence of market-called executeBids invocations: the per-call decrease
of the entry's remaining amount, summed along the sequence. -/
def seqPayout (s : LQState) (ds : List Nat) (poolId i : Nat) : Nat :=
  match ds with
  | [] => 0
  | d :: rest =>
    match executeBids s s.meta.market d with
    | .ok r => (sAmountAt s poolId i - sAmountAt r.2 poolId i) + seqPayout r.2 rest poolId i
    | .error _ => seqPayout s rest poolId i

@[simp] theorem amountAt_nil (i : Nat) : amountAt [] i = 0 := by
  cases i <;> rfl

@[simp] theorem amountAt_cons_zero (e : OrderBookEntry) (l : List OrderBookEntry) :
    amountAt (e :: l) 0 = e.bidInfo.amount := rfl

@[simp] theorem amountAt_cons_succ (e : OrderBookEntry) (l : List OrderBookEntry) (i : Nat) :
    amountAt (e :: l) (i + 1) = amountAt l i := rfl

theorem amountAt_of_length_le (l : List OrderBookEntry) (i : Nat) (h : l.length ≤ i) :
    amountAt l i = 0 := by
  simp [amountAt, List.getD_eq_getElem?_getD, List.getElem?_eq_none h, defaultEntry]

theorem drain_length (d : Nat) (l : List OrderBookEntry) :
    (drainEntries d l).entries.length = l.length := by
  induction l generalizing d with
  | nil => rfl
  | cons e rest ih =>
    by_cases h0 : d = 0
    · simp [drainEntries, h0]
    · by_cases hv : e.bidInfo.amount = 0
      · simp [drainEntries, h0, hv, ih]
      · by_cases hle : e.bidInfo.amount ≤ d
        · simp [drainEntries, h0, hv, hle, ih]
        · simp [drainEntries, h0, hv, hle]

theorem drain_remaining_le (d : Nat) (l : List OrderBookEntry) :
    (drainEntries d l).remaining ≤ d := by
  induction l generalizing d with
  | nil => simp [drainEntries]
  | cons e rest ih =>
    by_cases h0 : d = 0
    · simp [drainEntries, h0]
    · by_cases hv : e.bidInfo.amount = 0
      · simpa [drainEntries, h0, hv] using ih d
      · by_cases hle : e.bidInfo.amount ≤ d
        · have := ih (d - e.bidInfo.amount)
          simp only [drainEntries, h0, hv, hle, if_false, if_true, ite_false, ite_true]
          omega
        · simp [drainEntries, h0, hv, hle]

theorem drain_fillsSum (d : Nat) (l : List OrderBookEntry) :
    fillsSum (drainEntries d l).fills + (drainEntries d l).remaining = d := by
  induction l generalizing d with
  | nil => simp [drainEntries, fillsSum]
  | cons e rest ih =>
    by_cases h0 : d = 0
    · simp [drainEntries, h0, fillsSum]
    · by_cases hv : e.bidInfo.amount = 0
      · simpa [drainEntries, h0, hv] using ih d
      · by_cases hle : e.bidInfo.amount ≤ d
        · have := ih (d - e.bidInfo.amount)
          simp only [drainEntries, h0, hv, hle, if_false, if_true, ite_false, ite_true,
            fillsSum, List.map_cons, List.sum_cons] at this ⊢
          omega
        · simp [drainEntries, h0, hv, hle, fillsSum]

theorem drain_amount_le (d : Nat) (l : List OrderBookEntry) (i : Nat) :
    amountAt (drainEntries d l).entries i ≤ amountAt l i := by
  induction l generalizing d i with
  | nil => simp [drainEntries]
  | cons e rest ih =>
    by_cases h0 : d = 0
    · simp [drainEntries, h0]
    · by_cases hv : e.bidInfo.amount = 0
      · cases i with
        | zero => simp [drainEntries, h0, hv]
        | succ j => simpa [drainEntries, h0, hv] using ih d j
      · by_cases hle : e.bidInfo.amount ≤ d
        · cases i with
          | zero => simp [drainEntries, h0, hv, hle]
          | succ j => simpa [drainEntries, h0, hv, hle] using ih (d - e.bidInfo.amount) j
        · cases i with
          | zero => simp [drainEntries, h0, hv, hle]
          | succ j => simp [drainEntries, h0, hv, hle]

theorem drain_consumed_le (d : Nat) (l : List OrderBookEntry) :
    (drainEntries d l).consumed ≤ l.length := by
  induction l generalizing d with
  | nil => simp [drainEntries]
  | cons e rest ih =>
    by_cases h0 : d = 0
    · simp [drainEntries, h0]
    · by_cases hv : e.bidInfo.amount = 0
      · have := ih d
        simp only [drainEntries, h0, hv, if_false, if_true, ite_false, ite_true, List.length_cons]
        omega
      · by_cases hle : e.bidInfo.amount ≤ d
        · have := ih (d - e.bidInfo.amount)
          simp only [drainEntries, h0, hv, hle, if_false, if_true, ite_false, ite_true,
            List.length_cons]
          omega
        · simp [drainEntries, h0, hv, hle]

theorem drain_zero_before_consumed (d : Nat) (l : List OrderBookEntry) (i : Nat)
    (h : i < (drainEntries d l).consumed) :
    amountAt (drainEntries d l).entries i = 0 := by
  induction l generalizing d i with
  | nil => simp [drainEntries] at h
  | cons e rest ih =>
    by_cases h0 : d = 0
    · simp [drainEntries, h0] at h
    · by_cases hv : e.bidInfo.amount = 0
      · cases i with
        | zero => simp [drainEntries, h0, hv]
        | succ j =>
          simp only [drainEntries, h0, hv, if_false, if_true, ite_false, ite_true] at h ⊢
          exact ih d j (by omega)
      · by_cases hle : e.bidInfo.amount ≤ d
        · cases i with
          | zero => simp [drainEntries, h0, hv, hle]
          | succ j =>
            simp only [drainEntries, h0, hv, hle, if_false, if_true, ite_false, ite_true] at h ⊢
            exact ih (d - e.bidInfo.amount) j (by omega)
        · simp [drainEntries, h0, hv, hle] at h

theorem drain_fifo (d : Nat) (l : List OrderBookEntry) (i j : Nat) (hij : i < j)
    (hj : amountAt (drainEntries d l).entries j < amountAt l j) :
    amountAt (drainEntries d l).entries i = 0 := by
  induction l generalizing d i j with
  | nil => simp [drainEntries] at hj
  | cons e rest ih =>
    by_cases h0 : d = 0
    · simp [drainEntries, h0] at hj
    · by_cases hv : e.bidInfo.amount = 0
      · cases i with
        | zero => simp [drainEntries, h0, hv]
        | succ i' =>
          cases j with
          | zero => omega
          | succ j' =>
            simp only [drainEntries, h0, hv, if_false, if_true, ite_false, ite_true,
              amountAt_cons_succ] at hj ⊢
            exact ih d i' j' (by omega) hj
      · by_cases hle : e.bidInfo.amount ≤ d
        · cases i with
          | zero => simp [drainEntries, h0, hv, hle]
          | succ i' =>
            cases j with
            | zero => omega
            | succ j' =>
              simp only [drainEntries, h0, hv, hle, if_false, if_true, ite_false, ite_true,
                amountAt_cons_succ] at hj ⊢
              exact ih (d - e.bidInfo.amount) i' j' (by omega) hj
        · cases j with
          | zero => omega
          | succ j' =>
            simp only [drainEntries, h0, hv, hle, if_false, if_true, ite_false, ite_true,
              amountAt_cons_succ] at hj
            omega


theorem drain_exhaust (d : Nat) (l : List OrderBookEntry)
    (h : (drainEntries d l).remaining ≠ 0) (i : Nat) :
    amountAt (drainEntries d l).entries i = 0 := by
  induction l generalizing d i with
  | nil => simp [drainEntries]
  | cons e rest ih =>
    by_cases h0 : d = 0
    · simp [drainEntries, h0] at h
    · by_cases hv : e.bidInfo.amount = 0
      · simp only [drainEntries, h0, hv, if_false, if_true, ite_false, ite_true] at h ⊢
        cases i with
        | zero => simpa using hv
        | succ j => simpa using ih d h j
      · by_cases hle : e.bidInfo.amount ≤ d
        · simp only [drainEntries, h0, hv, hle, if_false, if_true, ite_false, ite_true] at h ⊢
          cases i with
          | zero => simp
          | succ j => simpa using ih (d - e.bidInfo.amount) h j
        · simp [drainEntries, h0, hv, hle] at h

theorem drain_demand_zero (l : List OrderBookEntry) :
    drainEntries 0 l = ⟨l, 0, [], 0⟩ := by
  cases l with
  | nil => rfl
  | cons e rest => simp [drainEntries]

theorem drain_consumed_exhaust (d : Nat) (l : List OrderBookEntry)
    (h : (drainEntries d l).remaining ≠ 0) :
    (drainEntries d l).consumed = l.length := by
  induction l generalizing d with
  | nil => simp [drainEntries]
  | cons e rest ih =>
    by_cases h0 : d = 0
    · simp [drainEntries, h0] at h
    · by_cases hv : e.bidInfo.amount = 0
      · simp only [drainEntries, h0, hv, if_false, if_true, ite_false, ite_true,
          List.length_cons] at h ⊢
        have := ih d h
        omega
      · by_cases hle : e.bidInfo.amount ≤ d
        · simp only [drainEntries, h0, hv, hle, if_false, if_true, ite_false, ite_true,
            List.length_cons] at h ⊢
          have := ih (d - e.bidInfo.amount) h
          omega
        · simp [drainEntries, h0, hv, hle] at h

theorem amountAt_append_lt (l l' : List OrderBookEntry) (i : Nat) (h : i < l.length) :
    amountAt (l ++ l') i = amountAt l i := by
  simp only [amountAt, List.getD_eq_getElem?_getD, List.getElem?_append, if_pos h]

theorem amountAt_append_ge (l l' : List OrderBookEntry) (i : Nat) (h : l.length ≤ i) :
    amountAt (l ++ l') i = amountAt l' (i - l.length) := by
  simp only [amountAt, List.getD_eq_getElem?_getD, List.getElem?_append_right h]

theorem amountAt_take (l : List OrderBookEntry) (n i : Nat) (h : i < n) :
    amountAt (l.take n) i = amountAt l i := by
  simp only [amountAt, List.getD_eq_getElem?_getD, List.getElem?_take, if_pos h]

theorem amountAt_drop (l : List OrderBookEntry) (n i : Nat) :
    amountAt (l.drop n) i = amountAt l (n + i) := by
  simp only [amountAt, List.getD_eq_getElem?_getD, List.getElem?_drop]

theorem reassemble_length (book rest : List OrderBookEntry) (pull : Nat)
    (hr : rest.length = book.length - pull) :
    (book.take pull ++ rest).length = book.length := by
  simp only [List.length_append, List.length_take]
  omega

theorem amountAt_reassemble_lt (book rest : List OrderBookEntry) (pull i : Nat)
    (hr : rest.length = book.length - pull) (h : i < pull) :
    amountAt (book.take pull ++ rest) i = amountAt book i := by
  by_cases hl : i < book.length
  · rw [amountAt_append_lt, amountAt_take book pull i h]
    simp only [List.length_take]
    omega
  · rw [amountAt_of_length_le book i (by omega),
      amountAt_of_length_le _ i (by rw [reassemble_length book rest pull hr]; omega)]

theorem amountAt_reassemble_add (book rest : List OrderBookEntry) (pull t : Nat)
    (hr : rest.length = book.length - pull) :
    amountAt (book.take pull ++ rest) (pull + t) = amountAt rest t := by
  by_cases hp : pull ≤ book.length
  · have hlen : (book.take pull).length = pull := by
      simp only [List.length_take]; omega
    rw [amountAt_append_ge _ _ _ (by omega), hlen]
    congr 1
    omega
  · have hr0 : rest.length = 0 := by omega
    have hrest : rest = [] := List.eq_nil_of_length_eq_zero hr0
    subst hrest
    have hlen : (book.take pull).length = book.length := by
      simp only [List.length_take]; omega
    rw [amountAt_append_ge _ _ _ (by omega)]
    simp

theorem amountAt_reassemble_ge (book rest : List OrderBookEntry) (pull i : Nat)
    (hr : rest.length = book.length - pull) (h : pull ≤ i) :
    amountAt (book.take pull ++ rest) i = amountAt rest (i - pull) := by
  have := amountAt_reassemble_add book rest pull (i - pull) hr
  rwa [Nat.add_sub_cancel' h] at this

theorem poolStep_meta (s : LQState) (d p : Nat) : (poolStep s d p).1.meta = s.meta := rfl

theorem poolStep_balancesDue (s : LQState) (d p : Nat) :
    (poolStep s d p).1.balancesDue = s.balancesDue := rfl

theorem poolStep_bidPools (s : LQState) (d p : Nat) :
    (poolStep s d p).1.bidPools = s.bidPools := rfl

theorem poolStep_rem (s : LQState) (d p : Nat) :
    (poolStep s d p).2.1 =
      (drainEntries d ((s.orderBookEntries p).drop (s.nextBidPull p))).remaining := rfl

theorem poolStep_fills (s : LQState) (d p : Nat) :
    (poolStep s d p).2.2 =
      (drainEntries d ((s.orderBookEntries p).drop (s.nextBidPull p))).fills := rfl

theorem poolStep_pull_self (s : LQState) (d p : Nat) :
    (poolStep s d p).1.nextBidPull p = s.nextBidPull p +
      (drainEntries d ((s.orderBookEntries p).drop (s.nextBidPull p))).consumed := by
  simp [poolStep]

theorem poolStep_pull_other (s : LQState) (d p q : Nat) (h : q ≠ p) :
    (poolStep s d p).1.nextBidPull q = s.nextBidPull q := by
  simp [poolStep, updMap_other _ _ _ _ h]

theorem poolStep_pull_mono (s : LQState) (d p q : Nat) :
    s.nextBidPull q ≤ (poolStep s d p).1.nextBidPull q := by
  by_cases h : q = p
  · subst h
    rw [poolStep_pull_self]
    omega
  · rw [poolStep_pull_other s d p q h]

theorem poolStep_book_other (s : LQState) (d p q : Nat) (h : q ≠ p) :
    (poolStep s d p).1.orderBookEntries q = s.orderBookEntries q := by
  simp [poolStep, updMap_other _ _ _ _ h]

theorem poolStep_book_self (s : LQState) (d p : Nat) :
    (poolStep s d p).1.orderBookEntries p =
      (s.orderBookEntries p).take (s.nextBidPull p) ++
        (drainEntries d ((s.orderBookEntries p).drop (s.nextBidPull p))).entries := by
  simp [poolStep]

theorem drain_entries_length_sub (s : LQState) (d p : Nat) :
    (drainEntries d ((s.orderBookEntries p).drop (s.nextBidPull p))).entries.length =
      (s.orderBookEntries p).length - s.nextBidPull p := by
  rw [drain_length, List.length_drop]

theorem poolStep_length (s : LQState) (d p q : Nat) :
    ((poolStep s d p).1.orderBookEntries q).length = (s.orderBookEntries q).length := by
  by_cases h : q = p
  · subst h
    rw [poolStep_book_self, reassemble_length _ _ _ (drain_entries_length_sub s d q)]
  · rw [poolStep_book_other s d p q h]

theorem poolStep_amount_lt_pull (s : LQState) (d p i : Nat) (h : i < s.nextBidPull p) :
    sAmountAt (poolStep s d p).1 p i = sAmountAt s p i := by
  show amountAt _ i = amountAt _ i
  rw [poolStep_book_self,
    amountAt_reassemble_lt _ _ _ _ (drain_entries_length_sub s d p) h]

theorem poolStep_amount_ge_pull (s : LQState) (d p i : Nat) (h : s.nextBidPull p ≤ i) :
    sAmountAt (poolStep s d p).1 p i =
      amountAt (drainEntries d ((s.orderBookEntries p).drop (s.nextBidPull p))).entries
        (i - s.nextBidPull p) := by
  show amountAt _ i = _
  rw [poolStep_book_self,
    amountAt_reassemble_ge _ _ _ _ (drain_entries_length_sub s d p) h]

theorem poolStep_amount_other (s : LQState) (d p q i : Nat) (h : q ≠ p) :
    sAmountAt (poolStep s d p).1 q i = sAmountAt s q i := by
  show amountAt _ i = amountAt _ i
  rw [poolStep_book_other s d p q h]

theorem poolStep_amount_le (s : LQState) (d p q i : Nat) :
    sAmountAt (poolStep s d p).1 q i ≤ sAmountAt s q i := by
  by_cases h : q = p
  · subst h
    by_cases hp : i < s.nextBidPull q
    · rw [poolStep_amount_lt_pull s d q i hp]
    · rw [poolStep_amount_ge_pull s d q i (by omega)]
      calc amountAt (drainEntries d ((s.orderBookEntries q).drop (s.nextBidPull q))).entries
              (i - s.nextBidPull q)
          ≤ amountAt ((s.orderBookEntries q).drop (s.nextBidPull q)) (i - s.nextBidPull q) :=
            drain_amount_le _ _ _
        _ = sAmountAt s q i := by
            rw [amountAt_drop, Nat.add_sub_cancel' (by omega)]
            rfl
  · show amountAt _ i ≤ amountAt _ i
    rw [poolStep_book_other s d p q h]

theorem poolStep_pull_zero (s : LQState) (d p i : Nat) (h1 : s.nextBidPull p ≤ i)
    (h2 : i < (poolStep s d p).1.nextBidPull p) :
    sAmountAt (poolStep s d p).1 p i = 0 := by
  rw [poolStep_amount_ge_pull s d p i h1]
  apply drain_zero_before_consumed
  rw [poolStep_pull_self] at h2
  omega

theorem poolStep_fifo (s : LQState) (d p i j : Nat) (h1 : s.nextBidPull p ≤ i)
    (hij : i < j) (hj : sAmountAt (poolStep s d p).1 p j < sAmountAt s p j) :
    sAmountAt (poolStep s d p).1 p i = 0 := by
  have hjp : s.nextBidPull p ≤ j := by omega
  rw [poolStep_amount_ge_pull s d p j hjp] at hj
  have hsj : sAmountAt s p j =
      amountAt ((s.orderBookEntries p).drop (s.nextBidPull p)) (j - s.nextBidPull p) := by
    rw [amountAt_drop, Nat.add_sub_cancel' hjp]
    rfl
  rw [hsj] at hj
  rw [poolStep_amount_ge_pull s d p i h1]
  exact drain_fifo d _ _ _ (by omega) hj

theorem poolStep_exhaust (s : LQState) (d p i : Nat) (hrem : (poolStep s d p).2.1 ≠ 0)
    (h : s.nextBidPull p ≤ i) :
    sAmountAt (poolStep s d p).1 p i = 0 := by
  rw [poolStep_amount_ge_pull s d p i h]
  exact drain_exhaust d _ (by rwa [poolStep_rem] at hrem) _

theorem poolStep_sum (s : LQState) (d p : Nat) :
    fillsSum (poolStep s d p).2.2 + (poolStep s d p).2.1 = d := by
  rw [poolStep_fills, poolStep_rem]
  exact drain_fillsSum d _

theorem poolStep_rem_le (s : LQState) (d p : Nat) : (poolStep s d p).2.1 ≤ d := by
  rw [poolStep_rem]
  exact drain_remaining_le d _

theorem fillsSum_append (a b : List (Nat × Nat)) :
    fillsSum (a ++ b) = fillsSum a + fillsSum b := by
  simp [fillsSum]

theorem execPoolsGo_zero (s : LQState) (ps : List Nat) :
    execPoolsGo s 0 ps = (s, 0, []) := by
  cases ps with
  | nil => rfl
  | cons p ps => simp [execPoolsGo]

theorem execPoolsGo_meta (s : LQState) (d : Nat) (ps : List Nat) :
    (execPoolsGo s d ps).1.meta = s.meta := by
  induction ps generalizing s d with
  | nil => rfl
  | cons p ps ih =>
    by_cases h0 : d = 0
    · simp [execPoolsGo, h0]
    · simp only [execPoolsGo, h0, if_false, ite_false]
      rw [ih, poolStep_meta]

theorem execPoolsGo_balancesDue (s : LQState) (d : Nat) (ps : List Nat) :
    (execPoolsGo s d ps).1.balancesDue = s.balancesDue := by
  induction ps generalizing s d with
  | nil => rfl
  | cons p ps ih =>
    by_cases h0 : d = 0
    · simp [execPoolsGo, h0]
    · simp only [execPoolsGo, h0, if_false, ite_false]
      rw [ih, poolStep_balancesDue]

theorem execPoolsGo_pull_mono (s : LQState) (d : Nat) (ps : List Nat) (q : Nat) :
    s.nextBidPull q ≤ (execPoolsGo s d ps).1.nextBidPull q := by
  induction ps generalizing s d with
  | nil => exact Nat.le_refl _
  | cons p ps ih =>
    by_cases h0 : d = 0
    · simp [execPoolsGo, h0]
    · simp only [execPoolsGo, h0, if_false, ite_false]
      exact Nat.le_trans (poolStep_pull_mono s d p q) (ih _ _)

theorem execPoolsGo_length (s : LQState) (d : Nat) (ps : List Nat) (q : Nat) :
    ((execPoolsGo s d ps).1.orderBookEntries q).length = (s.orderBookEntries q).length := by
  induction ps generalizing s d with
  | nil => rfl
  | cons p ps ih =>
    by_cases h0 : d = 0
    · simp [execPoolsGo, h0]
    · simp only [execPoolsGo, h0, if_false, ite_false]
      rw [ih, poolStep_length]

theorem execPoolsGo_amount_le (s : LQState) (d : Nat) (ps : List Nat) (q i : Nat) :
    sAmountAt (execPoolsGo s d ps).1 q i ≤ sAmountAt s q i := by
  induction ps generalizing s d with
  | nil => exact Nat.le_refl _
  | cons p ps ih =>
    by_cases h0 : d = 0
    · simp [execPoolsGo, h0]
    · simp only [execPoolsGo, h0, if_false, ite_false]
      exact Nat.le_trans (ih _ _) (poolStep_amount_le s d p q i)

theorem execPoolsGo_sum (s : LQState) (d : Nat) (ps : List Nat) :
    fillsSum (execPoolsGo s d ps).2.2 + (execPoolsGo s d ps).2.1 = d := by
  induction ps generalizing s d with
  | nil => simp [execPoolsGo, fillsSum]
  | cons p ps ih =>
    by_cases h0 : d = 0
    · simp [execPoolsGo, h0, fillsSum]
    · simp only [execPoolsGo, h0, if_false, ite_false]
      rw [fillsSum_append]
      have h1 := poolStep_sum s d p
      have h2 := ih (poolStep s d p).1 (poolStep s d p).2.1
      omega

theorem execPoolsGo_rem_le (s : LQState) (d : Nat) (ps : List Nat) :
    (execPoolsGo s d ps).2.1 ≤ d := by
  have := execPoolsGo_sum s d ps
  omega

theorem execPoolsGo_pull_zero (s : LQState) (d : Nat) (ps : List Nat) (q i : Nat)
    (h1 : s.nextBidPull q ≤ i) (h2 : i < (execPoolsGo s d ps).1.nextBidPull q) :
    sAmountAt (execPoolsGo s d ps).1 q i = 0 := by
  induction ps generalizing s d with
  | nil =>
    simp only [execPoolsGo] at h2
    omega
  | cons p ps ih =>
    by_cases h0 : d = 0
    · subst h0
      simp only [execPoolsGo_zero] at h2 ⊢
      omega
    · simp only [execPoolsGo, h0, if_false, ite_false] at h2 ⊢
      by_cases hp : i < (poolStep s d p).1.nextBidPull q
      · have hqp : q = p := by
          by_contra hne
          rw [poolStep_pull_other s d p q hne] at hp
          omega
        subst hqp
        have hz := poolStep_pull_zero s d q i h1 hp
        have := execPoolsGo_amount_le (poolStep s d q).1 (poolStep s d q).2.1 ps q i
        omega
      · exact ih _ _ (by omega) h2

theorem execPoolsGo_fifo (s : LQState) (d : Nat) (ps : List Nat) (q i j : Nat)
    (h1 : s.nextBidPull q ≤ i) (hij : i < j)
    (hj : sAmountAt (execPoolsGo s d ps).1 q j < sAmountAt s q j) :
    sAmountAt (execPoolsGo s d ps).1 q i = 0 := by
  induction ps generalizing s d with
  | nil =>
    simp only [execPoolsGo] at hj
    omega
  | cons p ps ih =>
    by_cases h0 : d = 0
    · subst h0
      simp only [execPoolsGo_zero] at hj ⊢
      omega
    · simp only [execPoolsGo, h0, if_false, ite_false] at hj ⊢
      by_cases hstep : sAmountAt (execPoolsGo (poolStep s d p).1 (poolStep s d p).2.1 ps).1 q j <
          sAmountAt (poolStep s d p).1 q j
      · by_cases hp : i < (poolStep s d p).1.nextBidPull q
        · have hqp : q = p := by
            by_contra hne
            rw [poolStep_pull_other s d p q hne] at hp
            omega
          subst hqp
          have hz := poolStep_pull_zero s d q i h1 hp
          have := execPoolsGo_amount_le (poolStep s d q).1 (poolStep s d q).2.1 ps q i
          omega
        · exact ih _ _ (by omega) hstep
      · have hqp : q = p := by
          by_contra hne
          rw [poolStep_amount_other s d p q j hne] at hstep
          omega
        subst hqp
        have hstep2 : sAmountAt (poolStep s d q).1 q j < sAmountAt s q j := by omega
        have hz := poolStep_fifo s d q i j h1 hij hstep2
        have := execPoolsGo_amount_le (poolStep s d q).1 (poolStep s d q).2.1 ps q i
        omega

theorem execPoolsGo_untouched (s : LQState) (d : Nat) (ps : List Nat) (p : Nat)
    (h : p ∉ ps) :
    (execPoolsGo s d ps).1.orderBookEntries p = s.orderBookEntries p ∧
      (execPoolsGo s d ps).1.nextBidPull p = s.nextBidPull p := by
  induction ps generalizing s d with
  | nil => exact ⟨rfl, rfl⟩
  | cons q ps ih =>
    have hpq : p ≠ q := fun hc => h (hc ▸ List.mem_cons_self q ps)
    have hps : p ∉ ps := fun hc => h (List.mem_cons_of_mem q hc)
    by_cases h0 : d = 0
    · simp [execPoolsGo, h0]
    · simp only [execPoolsGo, h0, if_false, ite_false]
      rcases ih (poolStep s d q).1 (poolStep s d q).2.1 hps with ⟨ha, hb⟩
      exact ⟨ha.trans (poolStep_book_other s d q p hpq),
        hb.trans (poolStep_pull_other s d q p hpq)⟩

theorem execPoolsGo_append (s : LQState) (d : Nat) (ps qs : List Nat) :
    execPoolsGo s d (ps ++ qs) =
      ((execPoolsGo (execPoolsGo s d ps).1 (execPoolsGo s d ps).2.1 qs).1,
        (execPoolsGo (execPoolsGo s d ps).1 (execPoolsGo s d ps).2.1 qs).2.1,
        (execPoolsGo s d ps).2.2 ++
          (execPoolsGo (execPoolsGo s d ps).1 (execPoolsGo s d ps).2.1 qs).2.2) := by
  induction ps generalizing s d with
  | nil => simp [execPoolsGo]
  | cons p ps ih =>
    by_cases h0 : d = 0
    · simp [execPoolsGo, h0, execPoolsGo_zero]
    · simp only [List.cons_append, execPoolsGo, h0, if_false, ite_false, List.append_eq]
      rw [ih]
      simp [List.append_assoc]

theorem executeBids_market (s : LQState) (total : Nat) :
    executeBids s s.meta.market total =
      .ok (total - (execPoolsGo s total (List.range (MAX_POOL + 1))).2.1,
        { (execPoolsGo s total (List.range (MAX_POOL + 1))).1 with
          balancesDue := applyFills
            (execPoolsGo s total (List.range (MAX_POOL + 1))).1.meta.feeCollector
            (execPoolsGo s total (List.range (MAX_POOL + 1))).2.2
            (execPoolsGo s total (List.range (MAX_POOL + 1))).1.balancesDue }) := by
  simp [executeBids]

theorem executeBids_ok_state (s : LQState) (total sat : Nat) (s' : LQState)
    (h : executeBids s s.meta.market total = .ok (sat, s')) :
    sat = total - (execPoolsGo s total (List.range (MAX_POOL + 1))).2.1 ∧
      s' = { (execPoolsGo s total (List.range (MAX_POOL + 1))).1 with
        balancesDue := applyFills
          (execPoolsGo s total (List.range (MAX_POOL + 1))).1.meta.feeCollector
          (execPoolsGo s total (List.range (MAX_POOL + 1))).2.2
          (execPoolsGo s total (List.range (MAX_POOL + 1))).1.balancesDue } := by
  rw [executeBids_market] at h
  have h2 := Except.ok.inj h
  exact ⟨(congrArg Prod.fst h2).symm, (congrArg Prod.snd h2).symm⟩

theorem creditOne_mono (fc : Nat) (bal : Nat → Nat) (b amt a : Nat) :
    bal a ≤ creditOne fc bal b amt a := by
  unfold creditOne
  by_cases hfc : a = fc
  · subst hfc
    rw [updMap_same]
    by_cases hb : a = b
    · subst hb
      rw [updMap_same]
      omega
    · rw [updMap_other _ _ _ _ hb]
      omega
  · rw [updMap_other _ _ _ _ hfc]
    by_cases hb : a = b
    · subst hb
      rw [updMap_same]
      omega
    · rw [updMap_other _ _ _ _ hb]

theorem applyFills_mono (fc : Nat) (fills : List (Nat × Nat)) (bal : Nat → Nat) (a : Nat) :
    bal a ≤ applyFills fc fills bal a := by
  induction fills generalizing bal with
  | nil => exact Nat.le_refl _
  | cons f fs ih =>
    calc bal a ≤ creditOne fc bal f.1 f.2 a := creditOne_mono fc bal f.1 f.2 a
      _ ≤ applyFills fc fs (creditOne fc bal f.1 f.2) a := ih _
      _ = applyFills fc (f :: fs) bal a := rfl

/-- The post-state of one market-called executeBids invocation. -/
def execStep (s : LQState) (d : Nat) : LQState :=
  match executeBids s s.meta.market d with
  | .ok r => r.2
  | .error _ => s

theorem execStep_eq (s : LQState) (d : Nat) :
    execStep s d = { (execPoolsGo s d (List.range (MAX_POOL + 1))).1 with
      balancesDue := applyFills
        (execPoolsGo s d (List.range (MAX_POOL + 1))).1.meta.feeCollector
        (execPoolsGo s d (List.range (MAX_POOL + 1))).2.2
        (execPoolsGo s d (List.range (MAX_POOL + 1))).1.balancesDue } := by
  unfold execStep
  rw [executeBids_market]

theorem execSeq_cons (s : LQState) (d : Nat) (ds : List Nat) :
    execSeq s (d :: ds) = execSeq (execStep s d) ds := by
  cases h : executeBids s s.meta.market d with
  | ok r => simp only [execSeq, execStep, h]
  | error e => simp only [execSeq, execStep, h]

theorem seqPayout_cons (s : LQState) (d : Nat) (ds : List Nat) (p i : Nat) :
    seqPayout s (d :: ds) p i =
      (sAmountAt s p i - sAmountAt (execStep s d) p i) + seqPayout (execStep s d) ds p i := by
  cases h : executeBids s s.meta.market d with
  | ok r => simp only [seqPayout, execStep, h]
  | error e =>
    rw [executeBids_market] at h
    exact absurd h (by simp)

theorem execStep_amount_le (s : LQState) (d p i : Nat) :
    sAmountAt (execStep s d) p i ≤ sAmountAt s p i := by
  rw [execStep_eq]
  exact execPoolsGo_amount_le s d _ p i

theorem execStep_pull_mono (s : LQState) (d p : Nat) :
    s.nextBidPull p ≤ (execStep s d).nextBidPull p := by
  rw [execStep_eq]
  exact execPoolsGo_pull_mono s d _ p

theorem execSeq_amount_le (s : LQState) (ds : List Nat) (p i : Nat) :
    sAmountAt (execSeq s ds) p i ≤ sAmountAt s p i := by
  induction ds generalizing s with
  | nil => exact Nat.le_refl _
  | cons d ds ih =>
    rw [execSeq_cons]
    exact Nat.le_trans (ih _) (execStep_amount_le s d p i)

theorem execSeq_pull_mono (s : LQState) (ds : List Nat) (p : Nat) :
    s.nextBidPull p ≤ (execSeq s ds).nextBidPull p := by
  induction ds generalizing s with
  | nil => exact Nat.le_refl _
  | cons d ds ih =>
    rw [execSeq_cons]
    exact Nat.le_trans (execStep_pull_mono s d p) (ih _)

theorem seqPayout_eq (s : LQState) (ds : List Nat) (p i : Nat) :
    seqPayout s ds p i = sAmountAt s p i - sAmountAt (execSeq s ds) p i := by
  induction ds generalizing s with
  | nil =>
    show 0 = sAmountAt s p i - sAmountAt s p i
    omega
  | cons d ds ih =>
    rw [seqPayout_cons, execSeq_cons, ih]
    have h1 := execStep_amount_le s d p i
    have h2 := execSeq_amount_le (execStep s d) ds p i
    omega

theorem execPoolsGo_zero_fst (s : LQState) (ps : List Nat) :
    (execPoolsGo s 0 ps).1 = s := by
  rw [execPoolsGo_zero]

theorem execPoolsGo_zero_rem (s : LQState) (ps : List Nat) :
    (execPoolsGo s 0 ps).2.1 = 0 := by
  rw [execPoolsGo_zero]

theorem execRange_pool_order (s : LQState) (total q p : Nat) (hqp : q < p)
    (htouch : ∃ j, sAmountAt (execPoolsGo s total (List.range (MAX_POOL + 1))).1 p j <
      sAmountAt s p j) :
    ∀ i, s.nextBidPull q ≤ i →
      sAmountAt (execPoolsGo s total (List.range (MAX_POOL + 1))).1 q i = 0 := by
  intro i hi
  obtain ⟨j, hj⟩ := htouch
  have hpM : p < MAX_POOL + 1 := by
    by_contra hge
    have hnotin : p ∉ List.range (MAX_POOL + 1) := by
      simp only [List.mem_range]
      omega
    have hunch := (execPoolsGo_untouched s total (List.range (MAX_POOL + 1)) p hnotin).1
    have heq : sAmountAt (execPoolsGo s total (List.range (MAX_POOL + 1))).1 p j
        = sAmountAt s p j := by
      show amountAt _ j = amountAt _ j
      rw [hunch]
    omega
  have hqM1 : q + 1 + (MAX_POOL - q) = MAX_POOL + 1 := by omega
  have hsplit : List.range (MAX_POOL + 1) =
      List.range (q + 1) ++ (List.range (MAX_POOL - q)).map (fun x => q + 1 + x) := by
    rw [← hqM1]
    exact List.range_add _ _
  have h1 : (execPoolsGo s total (List.range (MAX_POOL + 1))).1 =
      (execPoolsGo (execPoolsGo s total (List.range (q + 1))).1
        (execPoolsGo s total (List.range (q + 1))).2.1
        ((List.range (MAX_POOL - q)).map (fun x => q + 1 + x))).1 := by
    rw [hsplit, execPoolsGo_append]
  rw [h1] at hj ⊢
  have hpnotin : p ∉ List.range (q + 1) := by
    simp only [List.mem_range]
    omega
  have hsA := execPoolsGo_untouched s total (List.range (q + 1)) p hpnotin
  have hsAp : sAmountAt (execPoolsGo s total (List.range (q + 1))).1 p j
      = sAmountAt s p j := by
    show amountAt _ j = amountAt _ j
    rw [hsA.1]
  have hdA : (execPoolsGo s total (List.range (q + 1))).2.1 ≠ 0 := by
    intro h0
    rw [h0, execPoolsGo_zero_fst, hsAp] at hj
    omega
  have hq1 : List.range (q + 1) = List.range q ++ [q] := List.range_succ q
  have hA1 : (execPoolsGo s total (List.range (q + 1))).1 =
      (execPoolsGo (execPoolsGo s total (List.range q)).1
        (execPoolsGo s total (List.range q)).2.1 [q]).1 := by
    rw [hq1, execPoolsGo_append]
  have hA2 : (execPoolsGo s total (List.range (q + 1))).2.1 =
      (execPoolsGo (execPoolsGo s total (List.range q)).1
        (execPoolsGo s total (List.range q)).2.1 [q]).2.1 := by
    rw [hq1, execPoolsGo_append]
  have hqnotin : q ∉ List.range q := by simp
  have hsB := execPoolsGo_untouched s total (List.range q) q hqnotin
  have hdB : (execPoolsGo s total (List.range q)).2.1 ≠ 0 := by
    intro h0
    rw [hA2, h0, execPoolsGo_zero_rem] at hdA
    exact hdA rfl
  have hsingle1 : (execPoolsGo (execPoolsGo s total (List.range q)).1
      (execPoolsGo s total (List.range q)).2.1 [q]).1 =
      (poolStep (execPoolsGo s total (List.range q)).1
        (execPoolsGo s total (List.range q)).2.1 q).1 := by
    simp [execPoolsGo, hdB]
  have hsingle2 : (execPoolsGo (execPoolsGo s total (List.range q)).1
      (execPoolsGo s total (List.range q)).2.1 [q]).2.1 =
      (poolStep (execPoolsGo s total (List.range q)).1
        (execPoolsGo s total (List.range q)).2.1 q).2.1 := by
    simp [execPoolsGo, hdB]
  have hrem : (poolStep (execPoolsGo s total (List.range q)).1
      (execPoolsGo s total (List.range q)).2.1 q).2.1 ≠ 0 := by
    rw [← hsingle2, ← hA2]
    exact hdA
  have hzero : sAmountAt (execPoolsGo s total (List.range (q + 1))).1 q i = 0 := by
    rw [hA1, hsingle1]
    refine poolStep_exhaust _ _ q i hrem ?_
    rw [hsB.2]
    exact hi
  have hle := execPoolsGo_amount_le (execPoolsGo s total (List.range (q + 1))).1
    (execPoolsGo s total (List.range (q + 1))).2.1
    ((List.range (MAX_POOL - q)).map (fun x => q + 1 + x)) q i
  omega

theorem bid_not_init (s : LQState) (bidder poolId amount now : Nat)
    (h : s.initialized = false) :
    bid s bidder poolId amount now = .error .NotInitialized := by
  simp [bid, h]

theorem bid_premium_too_high (s : LQState) (bidder poolId amount now : Nat)
    (h0 : s.initialized = true) (h : MAX_POOL < poolId) :
    bid s bidder poolId amount now = .error .PremiumTooHigh := by
  simp [bid, h0, h]

theorem bid_too_low (s : LQState) (bidder poolId amount now : Nat)
    (h0 : s.initialized = true) (h1 : ¬ MAX_POOL < poolId)
    (h2 : amount < poolMinimum s poolId) :
    bid s bidder poolId amount now = .error .BidTooLow := by
  simp [bid, h0, h1, h2]

theorem bid_ok_eq (s : LQState) (bidder poolId amount now : Nat)
    (h0 : s.initialized = true) (h1 : ¬ MAX_POOL < poolId)
    (h2 : ¬ amount < poolMinimum s poolId) (h3 : ¬ s.bidBalance bidder < amount) :
    bid s bidder poolId amount now = .ok { s with
      bidBalance := updMap s.bidBalance bidder (s.bidBalance bidder - amount),
      bidPools := updMap2 s.bidPools poolId bidder
        ⟨(s.bidPools poolId bidder).amount + amount, now⟩ } := by
  simp [bid, h0, h1, h2, h3]

theorem bid_ok_book_inv (s : LQState) (bidder poolId amount now : Nat) (s1 : LQState)
    (h : bid s bidder poolId amount now = .ok s1) :
    s1.orderBookEntries = s.orderBookEntries := by
  unfold bid at h
  split at h
  · exact Except.noConfusion h
  · split at h
    · exact Except.noConfusion h
    · split at h
      · exact Except.noConfusion h
      · split at h
        · exact Except.noConfusion h
        · rw [← Except.ok.inj h]

theorem bidWithStable_premium_too_high (s : LQState) (bidder poolId foreignAmount : Nat)
    (swapFn : Nat → Except LQError Nat) (now : Nat)
    (h0 : s.initialized = true) (h : MAX_POOL < poolId) :
    bidWithStable s bidder poolId foreignAmount swapFn now = .error .PremiumTooHigh := by
  simp [bidWithStable, h0, h]

theorem bidWithStable_converted_too_low (s : LQState) (bidder poolId foreignAmount : Nat)
    (swapFn : Nat → Except LQError Nat) (now converted : Nat)
    (h0 : s.initialized = true) (h1 : ¬ MAX_POOL < poolId)
    (hsw : swapFn foreignAmount = .ok converted)
    (h2 : converted < poolMinimum s poolId) :
    bidWithStable s bidder poolId foreignAmount swapFn now = .error .BidTooLow := by
  simp [bidWithStable, h0, h1, hsw, h2]

theorem bidWithStable_ok_eq (s : LQState) (bidder poolId foreignAmount : Nat)
    (swapFn : Nat → Except LQError Nat) (now converted : Nat)
    (h0 : s.initialized = true) (h1 : ¬ MAX_POOL < poolId)
    (hsw : swapFn foreignAmount = .ok converted)
    (h2 : ¬ converted < poolMinimum s poolId) :
    bidWithStable s bidder poolId foreignAmount swapFn now = .ok { s with
      bidPools := updMap2 s.bidPools poolId bidder
        ⟨(s.bidPools poolId bidder).amount + converted, now⟩ } := by
  simp [bidWithStable, h0, h1, hsw, h2]

theorem activateBid_not_found (s : LQState) (bidder poolId now : Nat)
    (h : (s.bidPools poolId bidder).amount = 0) :
    activateBid s bidder poolId now = .error .BidNotFound := by
  simp [activateBid, h]

theorem activateBid_too_soon (s : LQState) (bidder poolId now : Nat)
    (h1 : (s.bidPools poolId bidder).amount ≠ 0)
    (h2 : now - (s.bidPools poolId bidder).timestamp < s.meta.activationTime) :
    activateBid s bidder poolId now = .error .TooSoon := by
  simp [activateBid, h1, h2]

theorem activateBid_ok_eq (s : LQState) (bidder poolId now : Nat)
    (h1 : (s.bidPools poolId bidder).amount ≠ 0)
    (h2 : ¬ now - (s.bidPools poolId bidder).timestamp < s.meta.activationTime) :
    activateBid s bidder poolId now = .ok { s with
      bidPools := updMap2 s.bidPools poolId bidder ⟨0, 0⟩,
      orderBookEntries := updMap s.orderBookEntries poolId
        (s.orderBookEntries poolId ++
          [⟨bidder, ⟨(s.bidPools poolId bidder).amount, now⟩⟩]),
      userBidIndexes := updMap2 s.userBidIndexes bidder poolId
        (s.userBidIndexes bidder poolId ++ [(s.orderBookEntries poolId).length]) } := by
  simp [activateBid, h1, h2]

theorem activateBid_ok_inv (s : LQState) (bidder poolId now : Nat) (s' : LQState)
    (h : activateBid s bidder poolId now = .ok s') :
    (s.bidPools poolId bidder).amount ≠ 0 ∧
      ¬ now - (s.bidPools poolId bidder).timestamp < s.meta.activationTime ∧
      s' = { s with
        bidPools := updMap2 s.bidPools poolId bidder ⟨0, 0⟩,
        orderBookEntries := updMap s.orderBookEntries poolId
          (s.orderBookEntries poolId ++
            [⟨bidder, ⟨(s.bidPools poolId bidder).amount, now⟩⟩]),
        userBidIndexes := updMap2 s.userBidIndexes bidder poolId
          (s.userBidIndexes bidder poolId ++ [(s.orderBookEntries poolId).length]) } := by
  unfold activateBid at h
  split at h
  · exact Except.noConfusion h
  · split at h
    · exact Except.noConfusion h
    · next hna hns => exact ⟨hna, hns, (Except.ok.inj h).symm⟩

theorem removeInactivatedBid_not_found (s : LQState) (bidder poolId : Nat)
    (h : (s.bidPools poolId bidder).amount = 0) :
    removeInactivatedBid s bidder poolId = .error .BidNotFound := by
  simp [removeInactivatedBid, h]

theorem removeInactivatedBid_ok_eq (s : LQState) (bidder poolId : Nat)
    (h : (s.bidPools poolId bidder).amount ≠ 0) :
    removeInactivatedBid s bidder poolId = .ok { s with
      bidPools := updMap2 s.bidPools poolId bidder ⟨0, 0⟩,
      bidBalance := updMap s.bidBalance bidder
        (s.bidBalance bidder + (s.bidPools poolId bidder).amount) } := by
  simp [removeInactivatedBid, h]

theorem init_already (s : LQState) (m : LQMeta) (h : s.initialized = true) :
    init s m = .error .AlreadyInitialized := by
  simp [init, h]

theorem init_ok_eq (s : LQState) (m : LQMeta) (h : s.initialized = false) :
    init s m = .ok { s with initialized := true, meta := m } := by
  simp [init, h]

theorem init_ok_inv (s : LQState) (m : LQMeta) (s' : LQState) (h : init s m = .ok s') :
    s' = { s with initialized := true, meta := m } := by
  unfold init at h
  split at h
  · exact Except.noConfusion h
  · exact (Except.ok.inj h).symm

/-- C1: every market call of executeBids succeeds (a liquidity shortfall is
not an error), returns an amount satisfied of at most the requested
totalAmountToLiquidate, and the liquidated asset credited into balancesDue
across all fills of the call sums to exactly the amount satisfied — never
more than the request; balances only grow. -/
theorem executeBids_caps_payout (s : LQState) (total : Nat) :
    ∃ sat s' fills,
      executeBids s s.meta.market total = .ok (sat, s') ∧
      sat ≤ total ∧
      fillsSum fills = sat ∧
      s'.balancesDue = applyFills s.meta.feeCollector fills s.balancesDue ∧
      ∀ a, s.balancesDue a ≤ s'.balancesDue a := by
  refine ⟨total - (execPoolsGo s total (List.range (MAX_POOL + 1))).2.1, _,
    (execPoolsGo s total (List.range (MAX_POOL + 1))).2.2,
    executeBids_market s total, Nat.sub_le _ _, ?_, ?_, ?_⟩
  · have := execPoolsGo_sum s total (List.range (MAX_POOL + 1))
    have := execPoolsGo_rem_le s total (List.range (MAX_POOL + 1))
    omega
  · show applyFills
        (execPoolsGo s total (List.range (MAX_POOL + 1))).1.meta.feeCollector
        (execPoolsGo s total (List.range (MAX_POOL + 1))).2.2
        (execPoolsGo s total (List.range (MAX_POOL + 1))).1.balancesDue =
      applyFills s.meta.feeCollector
        (execPoolsGo s total (List.range (MAX_POOL + 1))).2.2 s.balancesDue
    rw [execPoolsGo_meta, execPoolsGo_balancesDue]
  · intro a
    show s.balancesDue a ≤ applyFills
        (execPoolsGo s total (List.range (MAX_POOL + 1))).1.meta.feeCollector
        (execPoolsGo s total (List.range (MAX_POOL + 1))).2.2
        (execPoolsGo s total (List.range (MAX_POOL + 1))).1.balancesDue a
    rw [execPoolsGo_meta, execPoolsGo_balancesDue]
    exact applyFills_mono _ _ _ a

/-- C8: a caller other than the registered market is rejected with
Unauthorized; the rejection is a revert, so no successor state exists and
all queue state is untouched. -/
theorem executeBids_only_market (s : LQState) (caller total : Nat)
    (h : caller ≠ s.meta.market) :
    executeBids s caller total = .error .Unauthorized := by
  simp [executeBids, h]

/-- C9: before initialization every bid fails NotInitialized; a successful
init marks the queue initialized and stores the given meta, and from then
on every further init call fails AlreadyInitialized — a revert, leaving
the stored meta unchanged. -/
theorem init_at_most_once :
    (∀ (s : LQState) (bidder poolId amount now : Nat), s.initialized = false →
      bid s bidder poolId amount now = .error .NotInitialized) ∧
    (∀ (s : LQState) (m : LQMeta) (s' : LQState), init s m = .ok s' →
      s'.initialized = true ∧ s'.meta = m ∧
      ∀ m2, init s' m2 = .error .AlreadyInitialized) := by
  constructor
  · intro s bidder poolId amount now h
    exact bid_not_init s bidder poolId amount now h
  · intro s m s' h
    have hs' := init_ok_inv s m s' h
    subst hs'
    exact ⟨rfl, rfl, fun m2 => init_already _ m2 rfl⟩

/-- C3: redeem fails NoBalanceDue on a zero ledger entry; on a nonzero
entry it pays the beneficiary exactly the prior balancesDue amount out of
queue custody, zeroes the ledger entry, and an immediately repeated redeem
for the same beneficiary fails NoBalanceDue. -/
theorem redeem_read_then_clear (s : LQState) (b : Nat) :
    (s.balancesDue b = 0 → redeem s b = .error .NoBalanceDue) ∧
    (s.balancesDue b ≠ 0 →
      ∃ s', redeem s b = .ok s' ∧
        s'.collateralBalance b = s.collateralBalance b + s.balancesDue b ∧
        s'.balancesDue b = 0 ∧
        redeem s' b = .error .NoBalanceDue) := by
  constructor
  · intro h
    simp [redeem, h]
  · intro h
    refine ⟨{ s with
        balancesDue := updMap s.balancesDue b 0,
        collateralBalance := updMap s.collateralBalance b
          (s.collateralBalance b + s.balancesDue b) }, ?_, ?_, ?_, ?_⟩
    · simp [redeem, h]
    · simp
    · simp
    · simp [redeem]

/-- C4: with a pending bid, activateBid fails TooSoon exactly while the
elapsed time since the stored bid timestamp is strictly below the
activation delay, and succeeds once exactly the delay has elapsed; with no
pending bid it fails BidNotFound. -/
theorem activateBid_timing (s : LQState) (bidder poolId now : Nat) :
    ((s.bidPools poolId bidder).amount = 0 →
      activateBid s bidder poolId now = .error .BidNotFound) ∧
    ((s.bidPools poolId bidder).amount ≠ 0 →
      now - (s.bidPools poolId bidder).timestamp < s.meta.activationTime →
      activateBid s bidder poolId now = .error .TooSoon) ∧
    ((s.bidPools poolId bidder).amount ≠ 0 →
      now - (s.bidPools poolId bidder).timestamp = s.meta.activationTime →
      ∃ s', activateBid s bidder poolId now = .ok s') := by
  refine ⟨activateBid_not_found s bidder poolId now,
    activateBid_too_soon s bidder poolId now, ?_⟩
  intro h1 h2
  exact ⟨_, activateBid_ok_eq s bidder poolId now h1 (by omega)⟩

/-- C5: a successful activateBid clears the pending entry, appends exactly
one new order-book entry carrying the bidder and the pending amount at the
pool's previous nextBidPush position (all earlier entries and all other
pools unchanged), increments nextBidPush by one, and records the position
in the bidder's user index. -/
theorem activateBid_effects (s : LQState) (bidder poolId now : Nat) (s' : LQState)
    (h : activateBid s bidder poolId now = .ok s') :
    (s'.bidPools poolId bidder).amount = 0 ∧
    nextBidPush s' poolId = nextBidPush s poolId + 1 ∧
    (s'.orderBookEntries poolId).getD (nextBidPush s poolId) defaultEntry =
      ⟨bidder, ⟨(s.bidPools poolId bidder).amount, now⟩⟩ ∧
    (∀ i, i < nextBidPush s poolId →
      (s'.orderBookEntries poolId).getD i defaultEntry =
        (s.orderBookEntries poolId).getD i defaultEntry) ∧
    (∀ q, q ≠ poolId → s'.orderBookEntries q = s.orderBookEntries q) ∧
    s'.userBidIndexes bidder poolId =
      s.userBidIndexes bidder poolId ++ [nextBidPush s poolId] := by
  obtain ⟨h1, h2, hs'⟩ := activateBid_ok_inv s bidder poolId now s' h
  subst hs'
  refine ⟨by simp, ?_, ?_, ?_, ?_, by simp [nextBidPush]⟩
  · show (updMap s.orderBookEntries poolId (s.orderBookEntries poolId ++
        [⟨bidder, ⟨(s.bidPools poolId bidder).amount, now⟩⟩]) poolId).length =
        (s.orderBookEntries poolId).length + 1
    rw [updMap_same, List.length_append]
    rfl
  · simp only [nextBidPush, updMap_same]
    rw [List.getD_eq_getElem?_getD, List.getElem?_append_right (Nat.le_refl _)]
    simp
  · intro i hi
    simp only [nextBidPush] at hi
    simp only [updMap_same]
    rw [List.getD_eq_getElem?_getD, List.getElem?_append, if_pos hi,
      ← List.getD_eq_getElem?_getD]
  · intro q hq
    exact updMap_other _ _ _ _ hq

/-- C6: with no pending bid removeInactivatedBid fails BidNotFound; for a
valid bid of at least the pool minimum, placeBid immediately followed by
removeInactivatedBid clears the pending entry and restores the bidder's
custody balance to exactly its value before the placeBid. -/
theorem bid_remove_roundtrip :
    (∀ (s : LQState) (bidder poolId : Nat), (s.bidPools poolId bidder).amount = 0 →
      removeInactivatedBid s bidder poolId = .error .BidNotFound) ∧
    (∀ (s : LQState) (bidder poolId amount now : Nat),
      s.initialized = true → poolId ≤ MAX_POOL →
      poolMinimum s poolId ≤ amount → 0 < amount →
      amount ≤ s.bidBalance bidder → (s.bidPools poolId bidder).amount = 0 →
      ∃ s1 s2, bid s bidder poolId amount now = .ok s1 ∧
        removeInactivatedBid s1 bidder poolId = .ok s2 ∧
        s2.bidBalance bidder = s.bidBalance bidder ∧
        (s2.bidPools poolId bidder).amount = 0) := by
  constructor
  · intro s bidder poolId h
    exact removeInactivatedBid_not_found s bidder poolId h
  · intro s bidder poolId amount now hinit hpool hmin hpos hbal hfresh
    have hb := bid_ok_eq s bidder poolId amount now hinit (by omega) (by omega) (by omega)
    refine ⟨_, _, hb, removeInactivatedBid_ok_eq _ bidder poolId (by simp [hfresh]; omega),
      ?_, by simp⟩
    show updMap (updMap s.bidBalance bidder (s.bidBalance bidder - amount)) bidder
        (updMap s.bidBalance bidder (s.bidBalance bidder - amount) bidder +
          (updMap2 s.bidPools poolId bidder
            ⟨(s.bidPools poolId bidder).amount + amount, now⟩ poolId bidder).amount)
        bidder = s.bidBalance bidder
    rw [updMap_same, updMap_same, updMap2_same]
    simp [hfresh]
    omega

/-- C7: placeBid and placeBidWithStable both reject a pool id above
MAX_POOL with PremiumTooHigh and a bid below the pool minimum with
BidTooLow; for placeBidWithStable the BidTooLow check is applied to the
swap-converted amount, not the foreign input amount — a conversion
reaching the minimum is accepted regardless of the input amount. -/
theorem bid_validation :
    (∀ (s : LQState) (bidder poolId amount now : Nat), s.initialized = true →
      MAX_POOL < poolId → bid s bidder poolId amount now = .error .PremiumTooHigh) ∧
    (∀ (s : LQState) (bidder poolId amount now : Nat), s.initialized = true →
      poolId ≤ MAX_POOL → amount < poolMinimum s poolId →
      bid s bidder poolId amount now = .error .BidTooLow) ∧
    (∀ (s : LQState) (bidder poolId foreignAmount : Nat)
      (swapFn : Nat → Except LQError Nat) (now : Nat), s.initialized = true →
      MAX_POOL < poolId →
      bidWithStable s bidder poolId foreignAmount swapFn now = .error .PremiumTooHigh) ∧
    (∀ (s : LQState) (bidder poolId foreignAmount : Nat)
      (swapFn : Nat → Except LQError Nat) (now converted : Nat), s.initialized = true →
      poolId ≤ MAX_POOL → swapFn foreignAmount = .ok converted →
      converted < poolMinimum s poolId →
      bidWithStable s bidder poolId foreignAmount swapFn now = .error .BidTooLow) ∧
    (∀ (s : LQState) (bidder poolId foreignAmount : Nat)
      (swapFn : Nat → Except LQError Nat) (now converted : Nat), s.initialized = true →
      poolId ≤ MAX_POOL → swapFn foreignAmount = .ok converted →
      poolMinimum s poolId ≤ converted →
      ∃ s', bidWithStable s bidder poolId foreignAmount swapFn now = .ok s' ∧
        (s'.bidPools poolId bidder).amount =
          (s.bidPools poolId bidder).amount + converted) := by
  refine ⟨?_, ?_, ?_, ?_, ?_⟩
  · intro s bidder poolId amount now h0 h
    exact bid_premium_too_high s bidder poolId amount now h0 h
  · intro s bidder poolId amount now h0 h1 h2
    exact bid_too_low s bidder poolId amount now h0 (by omega) h2
  · intro s bidder poolId foreignAmount swapFn now h0 h
    exact bidWithStable_premium_too_high s bidder poolId foreignAmount swapFn now h0 h
  · intro s bidder poolId foreignAmount swapFn now converted h0 h1 hsw h2
    exact bidWithStable_converted_too_low s bidder poolId foreignAmount swapFn now
      converted h0 (by omega) hsw h2
  · intro s bidder poolId foreignAmount swapFn now converted h0 h1 hsw h2
    refine ⟨_, bidWithStable_ok_eq s bidder poolId foreignAmount swapFn now converted
      h0 (by omega) hsw (by omega), by simp⟩

/-- C10: getOrderBookPoolEntries returns the pool's order-book entry
sequence: empty for every pool of the fresh queue, unchanged by init and
by placing a bid, and after an activateBid in a pool it is non-empty and
contains the newly activated entry. -/
theorem getOrderBookPoolEntries_view :
    (∀ p, getOrderBookPoolEntries emptyLQState p = []) ∧
    (∀ (s : LQState) (m : LQMeta) (s' : LQState) (p : Nat), init s m = .ok s' →
      getOrderBookPoolEntries s' p = getOrderBookPoolEntries s p) ∧
    (∀ (s : LQState) (bidder poolId amount now : Nat) (s1 : LQState) (p : Nat),
      bid s bidder poolId amount now = .ok s1 →
      getOrderBookPoolEntries s1 p = getOrderBookPoolEntries s p) ∧
    (∀ (s : LQState) (bidder poolId now : Nat) (s' : LQState),
      activateBid s bidder poolId now = .ok s' →
      getOrderBookPoolEntries s' poolId ≠ [] ∧
        (⟨bidder, ⟨(s.bidPools poolId bidder).amount, now⟩⟩ : OrderBookEntry) ∈
          getOrderBookPoolEntries s' poolId) := by
  refine ⟨fun p => rfl, ?_, ?_, ?_⟩
  · intro s m s' p h
    rw [init_ok_inv s m s' h]
    rfl
  · intro s bidder poolId amount now s1 p h
    show s1.orderBookEntries p = s.orderBookEntries p
    rw [bid_ok_book_inv s bidder poolId amount now s1 h]
  · intro s bidder poolId now s' h
    obtain ⟨h1, h2, hs'⟩ := activateBid_ok_inv s bidder poolId now s' h
    subst hs'
    constructor
    · show updMap s.orderBookEntries poolId _ poolId ≠ []
      rw [updMap_same]
      simp
    · show _ ∈ updMap s.orderBookEntries poolId _ poolId
      rw [updMap_same]
      simp

/-- C2: in every market call of executeBids each pool's read cursor only
advances, the order book stays append-only (push cursor unchanged), entry
amounts never increase (a partial fill never exceeds the remaining
amount), within a pool an entry is only touched once every earlier live
entry from the cursor on is fully drained (strict FIFO), and a pool is
only touched once every lower pool is fully drained (ascending pool
order); across every sequence of such calls the cursors never rewind and
the cumulative payout taken from any entry equals its total amount
decrease, hence never exceeds the amount it held at the start — no entry
is ever paid out more than once. -/
theorem executeBids_fifo_at_most_once :
    (∀ (s : LQState) (total sat : Nat) (s' : LQState),
      executeBids s s.meta.market total = .ok (sat, s') →
      (∀ p, s.nextBidPull p ≤ s'.nextBidPull p) ∧
      (∀ p, nextBidPush s' p = nextBidPush s p) ∧
      (∀ p i, sAmountAt s' p i ≤ sAmountAt s p i) ∧
      (∀ p i, s.nextBidPull p ≤ i → i < s'.nextBidPull p → sAmountAt s' p i = 0) ∧
      (∀ p i j, s.nextBidPull p ≤ i → i < j →
        sAmountAt s' p j < sAmountAt s p j → sAmountAt s' p i = 0) ∧
      (∀ q p, q < p → (∃ j, sAmountAt s' p j < sAmountAt s p j) →
        ∀ i, s.nextBidPull q ≤ i → sAmountAt s' q i = 0)) ∧
    (∀ (s : LQState) (ds : List Nat) (p : Nat),
      s.nextBidPull p ≤ (execSeq s ds).nextBidPull p) ∧
    (∀ (s : LQState) (ds : List Nat) (p i : Nat),
      sAmountAt (execSeq s ds) p i ≤ sAmountAt s p i ∧
      seqPayout s ds p i = sAmountAt s p i - sAmountAt (execSeq s ds) p i ∧
      seqPayout s ds p i ≤ sAmountAt s p i) := by
  refine ⟨?_, execSeq_pull_mono, ?_⟩
  · intro s total sat s' h
    obtain ⟨hsat, hs'⟩ := executeBids_ok_state s total sat s' h
    subst hs'
    refine ⟨?_, ?_, ?_, ?_, ?_, ?_⟩
    · exact fun p => execPoolsGo_pull_mono s total _ p
    · exact fun p => execPoolsGo_length s total _ p
    · exact fun p i => execPoolsGo_amount_le s total _ p i
    · exact fun p i h1 h2 => execPoolsGo_pull_zero s total _ p i h1 h2
    · exact fun p i j h1 hij hj => execPoolsGo_fifo s total _ p i j h1 hij hj
    · exact fun q p hqp htouch i hi => execRange_pool_order s total q p hqp htouch i hi
  · intro s ds p i
    have h1 := execSeq_amount_le s ds p i
    have h2 := seqPayout_eq s ds p i
    exact ⟨h1, h2, by omega⟩

/-- Concrete configuration used by the witnesses: activation delay 600,
minimum bid 200, default bid 400, fee collector address 99, market
address 7. -/
def wMeta : LQMeta := ⟨600, 200, 400, 99, 7⟩

/-- Initialized queue with every account holding 1000 of the bid asset. -/
def wBase : LQState :=
  { emptyLQState with initialized := true, meta := wMeta, bidBalance := fun _ => 1000 }

/-- Queue whose pool 0 order book holds two activated entries. -/
def wBook : LQState :=
  { wBase with orderBookEntries :=
      (updMap wBase.orderBookEntries 0 [⟨1, ⟨200, 0⟩⟩, ⟨2, ⟨300, 0⟩⟩]) }

/-- Queue with a pending bid of 200 by bidder 1 in pool 10, placed at
time 100. -/
def wPend : LQState :=
  { wBase with bidPools := updMap2 wBase.bidPools 10 1 ⟨200, 100⟩ }

/-- Queue owing 500 of the liquidated asset to account 1. -/
def wDue : LQState :=
  { wBase with balancesDue := updMap wBase.balancesDue 1 500 }

/-- Result of the market executing 250 against the two-entry book. -/
def wExec : Nat × LQState :=
  (executeBids wBook wBook.meta.market 250).toOption.getD (0, wBook)

/-- State after activating the pending bid of wPend at time 700. -/
def wAct : LQState := (activateBid wPend 1 10 700).toOption.getD wPend

/-- State after initializing the fresh queue with wMeta. -/
def wInit : LQState := (init emptyLQState wMeta).toOption.getD emptyLQState

theorem executeBids_fifo_at_most_once_witness :
    wBook.nextBidPull 0 ≤ wExec.2.nextBidPull 0 :=
  (executeBids_fifo_at_most_once.1 wBook 250 wExec.1 wExec.2 rfl).1 0

theorem redeem_read_then_clear_witness :
    ∃ s', redeem wDue 1 = .ok s' ∧
      s'.collateralBalance 1 = wDue.collateralBalance 1 + wDue.balancesDue 1 ∧
      s'.balancesDue 1 = 0 ∧ redeem s' 1 = .error .NoBalanceDue :=
  (redeem_read_then_clear wDue 1).2 (by decide)

theorem activateBid_timing_witness :
    activateBid wPend 1 10 150 = .error .TooSoon ∧
    (∃ s', activateBid wPend 1 10 700 = .ok s') ∧
    activateBid wBase 1 10 700 = .error .BidNotFound :=
  ⟨(activateBid_timing wPend 1 10 150).2.1 (by decide) (by decide),
   (activateBid_timing wPend 1 10 700).2.2 (by decide) (by decide),
   (activateBid_timing wBase 1 10 700).1 (by decide)⟩

theorem activateBid_effects_witness :
    (wAct.bidPools 10 1).amount = 0 ∧ nextBidPush wAct 10 = nextBidPush wPend 10 + 1 :=
  have h := activateBid_effects wPend 1 10 700 wAct rfl
  ⟨h.1, h.2.1⟩

theorem bid_remove_roundtrip_witness :
    ∃ s1 s2, bid wBase 1 10 200 50 = .ok s1 ∧
      removeInactivatedBid s1 1 10 = .ok s2 ∧
      s2.bidBalance 1 = wBase.bidBalance 1 ∧ (s2.bidPools 10 1).amount = 0 :=
  bid_remove_roundtrip.2 wBase 1 10 200 50 (by decide) (by decide) (by decide)
    (by decide) (by decide) (by decide)

theorem bid_validation_witness :
    bid wBase 1 40 200 0 = .error .PremiumTooHigh ∧
    bid wBase 1 10 1 0 = .error .BidTooLow ∧
    bidWithStable wBase 1 10 1 (fun _ => .ok 100) 0 = .error .BidTooLow ∧
    (∃ s', bidWithStable wBase 1 10 1 (fun _ => .ok 250) 0 = .ok s' ∧
      (s'.bidPools 10 1).amount = (wBase.bidPools 10 1).amount + 250) :=
  ⟨bid_validation.1 wBase 1 40 200 0 (by decide) (by decide),
   bid_validation.2.1 wBase 1 10 1 0 (by decide) (by decide) (by decide),
   bid_validation.2.2.2.1 wBase 1 10 1 (fun _ => .ok 100) 0 100 (by decide) (by decide)
     rfl (by decide),
   bid_validation.2.2.2.2 wBase 1 10 1 (fun _ => .ok 250) 0 250 (by decide) (by decide)
     rfl (by decide)⟩

theorem executeBids_only_market_witness :
    executeBids wBase 3 100 = .error .Unauthorized :=
  executeBids_only_market wBase 3 100 (by decide)

theorem init_at_most_once_witness :
    bid emptyLQState 1 10 200 0 = .error .NotInitialized ∧
    (wInit.initialized = true ∧ wInit.meta = wMeta ∧
      ∀ m2, init wInit m2 = .error .AlreadyInitialized) :=
  ⟨init_at_most_once.1 emptyLQState 1 10 200 0 rfl,
   init_at_most_once.2 emptyLQState wMeta wInit rfl⟩

theorem getOrderBookPoolEntries_view_witness :
    getOrderBookPoolEntries emptyLQState 0 = [] ∧
    (getOrderBookPoolEntries wAct 10 ≠ [] ∧
      (⟨1, ⟨200, 700⟩⟩ : OrderBookEntry) ∈ getOrderBookPoolEntries wAct 10) :=
  ⟨getOrderBookPoolEntries_view.1 0,
   getOrderBookPoolEntries_view.2.2.2 wPend 1 10 700 wAct rfl⟩

end LQ
